import Mathlib

/-!
# Verification of the irctest message-exchange core

Shallow embedding of the message exchange and synchronization engine of the
irctest conformance harness (`irctest/cases.py` and, where the repository's
sources are not available, models taken from the specification):

* the IRC `Message` data model, with wire parsing and serialization
  (modelled from the spec, the `irc_utils.message_parser` module is absent),
* the line-buffered transport (`getLine`, `sendLine`, `getMessage`),
* the capability-negotiation state machine
  (`readCapLs`, `userNickPredicate`, `negotiateCapabilities`),
* the assertion helpers (`assertMessageEqual`, `assertDisconnected`).

Strings are embedded as `List Char`, so that every operation is executable
and every concrete claim can be settled by evaluation.
-/

deriving instance DecidableEq for Except

namespace Irctest

/-- Wire strings are modelled as lists of characters. -/
abbrev Chars := List Char

/-- Shorthand turning a string literal into its character list. -/
def toL (s : String) : Chars := s.toList

/-- One parsed IRC line, as built by `message_parser.parse_message`
(modelled from the spec, §3): a tag mapping, an optional source
(the spec calls this field the message's `prefix`; that identifier is
unavailable here, so the field is named `origin`), a command and the
ordered parameter list.  The Python `Message` constructor takes the
fields in this exact order (`Message(tags, None, "CAP", ["END"])`). -/
structure Message where
  tags : List (Chars × Chars)
  origin : Option Chars
  command : Chars
  params : List Chars
deriving DecidableEq, Repr

/-! ## Tag-value escaping (spec §4.1 step 1 and §6)

Escaping table: `\:` ↔ `;`, `\s` ↔ space, `\\` ↔ `\`, `\r` ↔ CR,
`\n` ↔ LF; on unescaping, a lone trailing backslash is dropped and an
unknown escape drops the backslash. -/

/-- Modelled from the spec: IRCv3 tag-value escaping used when serializing
a tag value (the `message_parser` module is absent from the sources). -/
def escapeTagValue : Chars → Chars
  | [] => []
  | c :: cs =>
    (if c = ';' then ['\\', ':']
     else if c = ' ' then ['\\', 's']
     else if c = '\\' then ['\\', '\\']
     else if c = '\r' then ['\\', 'r']
     else if c = '\n' then ['\\', 'n']
     else [c]) ++ escapeTagValue cs

/-- Modelled from the spec: IRCv3 tag-value unescaping used when parsing
a tag value; the trailing backslash is dropped, an unknown escape keeps
the bare character. -/
def unescapeTagValue : Chars → Chars
  | [] => []
  | c :: cs =>
    if c = '\\' then
      match cs with
      | [] => []
      | d :: ds =>
        (if d = ':' then [';']
         else if d = 's' then [' ']
         else if d = '\\' then ['\\']
         else if d = 'r' then ['\r']
         else if d = 'n' then ['\n']
         else [d]) ++ unescapeTagValue ds
    else c :: unescapeTagValue cs

/-- Split a character list on a separator character; standard split
semantics (`splitSemi ';' [] = [[]]`, separators delimit possibly-empty
pieces).  Used for the `;`-separated tag entries. -/
def splitSep (sep : Char) : Chars → List Chars
  | [] => [[]]
  | c :: rest =>
    if c = sep then [] :: splitSep sep rest
    else
      match splitSep sep rest with
      | e :: es => (c :: e) :: es
      | [] => [[c]]

/-- Parse errors of the message parser (spec §4.1: empty command,
malformed tag block). -/
inductive ParseErr
  | emptyCommand
  | malformedTags
deriving DecidableEq, Repr

/-- Modelled from the spec (§4.1 step 1): one tag entry is split on the
first `=` into key and value (value defaults to empty when there is no
`=`), the value unescaped; an empty key is a malformed tag block. -/
def parseTagEntry (e : Chars) : Except ParseErr (Chars × Chars) :=
  let k := e.takeWhile (· ≠ '=')
  if k = [] then .error .malformedTags
  else
    match e.dropWhile (· ≠ '=') with
    | [] => .ok (k, [])
    | _ :: v => .ok (k, unescapeTagValue v)

/-- Parse a list of tag entries in order; the first malformed entry's
error propagates. -/
def parseTagEntries : List Chars → Except ParseErr (List (Chars × Chars))
  | [] => .ok []
  | e :: es =>
    match parseTagEntry e with
    | .error err => .error err
    | .ok kv =>
      match parseTagEntries es with
      | .error err => .error err
      | .ok kvs => .ok (kv :: kvs)

/-- Modelled from the spec (§4.1 step 1): the tag block (text between `@`
and the first space) is split on `;` into entries. -/
def parseTagBlock (block : Chars) : Except ParseErr (List (Chars × Chars)) :=
  parseTagEntries (splitSep ';' block)

/-- One tokenization step bound by fuel (the fuel is always at least the
length of the input, and each step consumes at least one character).
Modelled from the spec (§4.1 step 3): split on spaces, repeated spaces
acting as a single separator, except that a parameter starting with `:`
swallows the whole rest of the line (colon stripped) verbatim. -/
def tokenizeF : Nat → Chars → List Chars
  | _, [] => []
  | fuel, c :: cs =>
    if c = ':' then [cs]
    else
      match fuel with
      | 0 => []
      | f + 1 =>
        (c :: cs).takeWhile (· ≠ ' ') ::
          tokenizeF f (((c :: cs).dropWhile (· ≠ ' ')).dropWhile (· = ' '))

/-- Modelled from the spec (§4.1 step 3): tokenize the parameter section. -/
def tokenize (cs : Chars) : List Chars := tokenizeF cs.length cs

/-- Modelled from the spec (§4.1 steps 3–4): split the remaining text
(after tags and source) into command and parameters; an empty command is
a parse error. -/
def parseCmdParams (tags : List (Chars × Chars)) (src : Option Chars)
    (cs : Chars) : Except ParseErr Message :=
  if ((cs.dropWhile (· = ' ')).takeWhile (· ≠ ' ')) = [] then
    .error .emptyCommand
  else
    .ok ⟨tags, src, (cs.dropWhile (· = ' ')).takeWhile (· ≠ ' '),
      tokenize
        (((cs.dropWhile (· = ' ')).dropWhile (· ≠ ' ')).dropWhile (· = ' '))⟩

/-- Modelled from the spec (§4.1 step 2): skip spaces, then consume an
optional `:`-led source (the wire prefix) up to the next space. -/
def parseAfterTags (tags : List (Chars × Chars)) (cs : Chars) :
    Except ParseErr Message :=
  match cs.dropWhile (· = ' ') with
  | [] => parseCmdParams tags none []
  | c :: rest =>
    if c = ':' then
      parseCmdParams tags (some (rest.takeWhile (· ≠ ' ')))
        (rest.dropWhile (· ≠ ' '))
    else parseCmdParams tags none (c :: rest)

/-- Modelled from the spec (§4.1): `message_parser.parse_message`.  The
module is absent from the sources; the algorithm follows the spec's
steps 1–4 literally.  A leading `@` opens a tag block running to the
first space (no space at all is a malformed tag block). -/
def parse_message (line : Chars) : Except ParseErr Message :=
  match line with
  | [] => parseAfterTags [] []
  | c :: rest =>
    if c = '@' then
      match rest.dropWhile (· ≠ ' ') with
      | [] => .error .malformedTags
      | _ :: rest2 =>
          match parseTagBlock (rest.takeWhile (· ≠ ' ')) with
          | .error e => .error e
          | .ok tags => parseAfterTags tags rest2
    else parseAfterTags [] (c :: rest)

/-! ## Serialization (spec §3 invariant and §6 wire format) -/

/-- Modelled from the spec: one serialized tag entry, `key=escaped-value`. -/
def serializeTag (kv : Chars × Chars) : Chars :=
  kv.1 ++ '=' :: escapeTagValue kv.2

/-- Join pieces with a single separator character between them (the
inverse of `splitSep` on separator-free pieces). -/
def joinSep (sep : Char) : List Chars → Chars
  | [] => []
  | [x] => x
  | x :: y :: ys => x ++ sep :: joinSep sep (y :: ys)

/-- Modelled from the spec (§3): the last parameter is written with a
leading `:` when it contains a space, starts with `:`, or is empty. -/
def needsColon (t : Chars) : Bool :=
  t.isEmpty || t.head? = some ':' || decide (' ' ∈ t)

/-- The serialized parameter section without its leading space:
intermediate parameters verbatim, the last one colon-escaped if needed. -/
def paramsBody : List Chars → Chars
  | [] => []
  | [t] => if needsColon t then ':' :: t else t
  | p :: q :: ps => p ++ ' ' :: paramsBody (q :: ps)

/-- The serialized tag section: `@k1=v1;k2=v2 ` when there are tags,
nothing otherwise. -/
def tagsSection (tags : List (Chars × Chars)) : Chars :=
  match tags with
  | [] => []
  | t :: ts => '@' :: joinSep ';' ((t :: ts).map serializeTag) ++ [' ']

/-- The serialized source section: `:source ` when present. -/
def originSection : Option Chars → Chars
  | none => []
  | some p => ':' :: p ++ [' ']

/-- The serialized parameter section, with its leading space. -/
def paramsSection (ps : List Chars) : Chars :=
  match ps with
  | [] => []
  | p :: ps => ' ' :: paramsBody (p :: ps)

/-- Modelled from the spec (§3, §6): serialize a `Message` back to the
wire: `[@tags ][:source ]COMMAND [param]*[ :trailing]`. -/
def serialize (m : Message) : Chars :=
  tagsSection m.tags ++ originSection m.origin ++ m.command ++
    paramsSection m.params

/-- Wire-legality of a message: the IRC grammar constraints under which
serialization is invertible.  Tag keys are non-empty, free of `;`, `=`
and space, and pairwise distinct (the tags form a mapping); the source
contains no space; the command is non-empty, space-free and does not
begin with `:` or `@`; every parameter except the last is non-empty,
space-free and does not begin with `:` (the last parameter is
arbitrary — the trailing-colon escape covers it). -/
def LegalMessage (m : Message) : Prop :=
  (∀ kv ∈ m.tags, kv.1 ≠ [] ∧ ';' ∉ kv.1 ∧ '=' ∉ kv.1 ∧ ' ' ∉ kv.1) ∧
  (m.tags.map Prod.fst).Nodup ∧
  (∀ p ∈ m.origin.toList, ' ' ∉ p) ∧
  m.command ≠ [] ∧
  ' ' ∉ m.command ∧
  ¬ m.command.head? = some ':' ∧
  ¬ m.command.head? = some '@' ∧
  (∀ q ∈ m.params.dropLast, q ≠ [] ∧ ' ' ∉ q ∧ ¬ q.head? = some ':')

instance (m : Message) : Decidable (LegalMessage m) := by
  unfold LegalMessage; infer_instance

/-! ## Line-buffered transport (cases.py: `BaseClientTestCase`) -/

/-- The CRLF line terminator. -/
def crlf : Chars := ['\r', '\n']

/-- Embeds `self.conn_file.readline()` for a file object created with
`makefile(newline='\r\n')` (cases.py:89–93): returns the characters up
to and including the first CRLF, the whole remaining buffer when no
terminator is present, and the empty string when the peer has closed
and the buffer is drained (Python raises nothing at EOF).  The result
pairs the line with the remaining buffer. -/
def readline : Chars → Chars × Chars
  | [] => ([], [])
  | [c] => ([c], [])
  | c :: d :: rest =>
    if c = '\r' && d = '\n' then (['\r', '\n'], rest)
    else
      let (l, r) := readline (d :: rest)
      (c :: l, r)

/-- Whether a character sequence contains the CRLF pair. -/
def containsCrlf : Chars → Bool
  | [] => false
  | [_] => false
  | c :: d :: rest => (c = '\r' && d = '\n') || containsCrlf (d :: rest)

/-- Embeds `BaseClientTestCase.getLine` (cases.py:95–99): it returns
`self.conn_file.readline()` unchanged — the terminator is not stripped
(the `show_io` debug print strips only its local copy of the line),
and at EOF the empty string is returned rather than an error raised. -/
def getLine (buf : Chars) : Chars × Chars := readline buf

/-- Embeds Python `line.endswith('\r\n')`. -/
def endsWithCrlf (l : Chars) : Bool :=
  match l.reverse with
  | [] => false
  | [_] => false
  | a :: b :: _ => a = '\n' && b = '\r'

/-- Drop one trailing CRLF when present (the line's payload). -/
def stripCrlfOnce (l : Chars) : Chars :=
  match l.reverse with
  | [] => l
  | [_] => l
  | a :: b :: t => if a = '\n' && b = '\r' then t.reverse else l

/-- Embeds `BaseClientTestCase.sendLine` (cases.py:112–119) as the list
of `sendall` payloads it performs: the line itself, then CRLF exactly
when the line does not already end with CRLF. -/
def sendLineCalls (line : Chars) : List Chars :=
  [line] ++ (if endsWithCrlf line then [] else [crlf])

/-- The byte stream one `sendLine` call puts on the socket. -/
def bytesSent (line : Chars) : Chars := (sendLineCalls line).flatten

/-- Failure modes of `getMessage` over a finite stream: a parse error
raised by `parse_message`, or an exhausted stream (modelling the read
blocking forever). -/
inductive GetMsgErr
  | parseFailure (e : ParseErr)
  | exhausted
deriving DecidableEq, Repr

/-- Embeds `BaseClientTestCase.getMessage` (cases.py:103–111) over the
finite stream of lines the peer sends: each line is parsed in turn; the
message is returned when there is no filter predicate (`if not
filter_pred or filter_pred(msg)`) or when the predicate returns true,
and is silently discarded otherwise. -/
def getMessage (filter_pred : Option (Message → Bool)) :
    List Chars → Except GetMsgErr Message
  | [] => .error .exhausted
  | l :: rest =>
    match parse_message l with
    | .error e => .error (.parseFailure e)
    | .ok m =>
      if (match filter_pred with | none => true | some p => p m) then .ok m
      else getMessage filter_pred rest

/-- The lines of a stream parse, in order, to the given messages. -/
def parsesTo (lines : List Chars) (msgs : List Message) : Prop :=
  lines.map parse_message = msgs.map Except.ok

/-- The first message of a list satisfying a predicate, with the rest
discarded — the behaviour the spec ascribes to a filtered `getMessage`
(an empty result models the read blocking). -/
def firstMatch (p : Message → Bool) (msgs : List Message) :
    Except GetMsgErr Message :=
  match msgs.find? p with
  | some m => .ok m
  | none => .error .exhausted

/-! ## Capability negotiation (cases.py: `ClientNegociationHelper`) -/

/-- Outcome of `readCapLs` on the first message read from the peer. -/
inductive CapLsOutcome
  | fail (reason : Chars)
  | ok (protocol_version : Option Nat)
deriving DecidableEq, Repr

/-- Embeds `ClientNegociationHelper.readCapLs` (cases.py:123–142) applied
to the first message read: a non-`CAP` command fails the assertion
'First message is not CAP LS.'; params `["LS"]`, `["LS","302"]` and
`["END"]` record protocol version 301, 302 and `None`; any other params
raise 'Unknown CAP params: …'. -/
def readCapLs (m : Message) : CapLsOutcome :=
  if m.command ≠ toL "CAP" then .fail (toL "First message is not CAP LS.")
  else if m.params = [toL "LS"] then .ok (some 301)
  else if m.params = [toL "LS", toL "302"] then .ok (some 302)
  else if m.params = [toL "END"] then .ok none
  else .fail (toL "Unknown CAP params")

/-- Fuel-bounded Python `str.split()` on spaces: leading separators are
skipped and each step consumes at least one character, so fuel equal to
the input length suffices. -/
def splitWsF : Nat → Chars → List Chars
  | _, [] => []
  | 0, _ => []
  | fuel + 1, cs =>
    match cs.dropWhile (· = ' ') with
    | [] => []
    | ds => ds.takeWhile (· ≠ ' ') :: splitWsF fuel (ds.dropWhile (· ≠ ' '))

/-- Embeds Python `str.split()` (no argument): split on space runs,
producing no empty pieces.  Used for `m.params[1].split()`. -/
def splitWs (cs : Chars) : List Chars := splitWsF cs.length cs

/-- Modelled from the spec (§3: the advertised "capability name→value
pairs"; the `irc_utils.capabilities` module is absent from the sources):
each advertised capability `name` or `name=value` is split on the first
`=` into its name and value. -/
def cap_list_to_dict (caps : List Chars) : List (Chars × Chars) :=
  caps.map fun c =>
    (c.takeWhile (· ≠ '='),
     match c.dropWhile (· ≠ '=') with
     | [] => []
     | _ :: v => v)

/-- `frozenset(capabilities.cap_list_to_dict(caps))` (cases.py:167): the
set of advertised capability names. -/
def capabilityNames (caps : List Chars) : Finset Chars :=
  ((cap_list_to_dict caps).map Prod.fst).toFinset

/-- Embeds Python `self.nick or '*'` (cases.py:179, 183): `None` and the
empty string are falsy, so both yield `"*"`. -/
def orStar : Option Chars → Chars
  | none => toL "*"
  | some n => if n = [] then toL "*" else n

/-- The reply line `'CAP {} {verb} :{arg}'` sent by the negotiation loop
(cases.py:178–184). -/
def capReplyLine (nick verb arg : Chars) : Chars :=
  toL "CAP " ++ nick ++ [' '] ++ verb ++ toL " :" ++ arg

/-- The mutable state the negotiation loop threads: `self.nick` and
`self.user` (written by `userNickPredicate`, cases.py:144–156) and
`self.acked_capabilities` (cases.py:168, 185). -/
structure NegState where
  nick : Option Chars
  user : Option (List Chars)
  acked_capabilities : Finset Chars
deriving DecidableEq

/-- What the negotiation loop hands back on normal exit: the message
returned unconsumed to the caller, the final state, and the lines sent
while looping. -/
structure NegReturn where
  returned : Message
  final : NegState
  sent : List Chars
deriving DecidableEq

/-- Outcome of the negotiation loop: a normal return, a hard assertion
failure, or an exhausted stream (the blocking read never completing). -/
inductive NegOutcome
  | ok (r : NegReturn)
  | assertFail (reason : Chars)
  | blocked
deriving DecidableEq

/-- Record one more sent line in a loop outcome. -/
def consSent (l : Chars) : NegOutcome → NegOutcome
  | .ok r => .ok ⟨r.returned, r.final, l :: r.sent⟩
  | o => o

/-- Embeds the `while True` loop of
`ClientNegociationHelper.negotiateCapabilities` (cases.py:169–187)
together with the `userNickPredicate` filter (cases.py:144–156) the
loop reads through, over the finite stream of parsed messages:

* `NICK` (one param) records the nick and is skipped, `USER` (four
  params) records the user and is skipped; wrong arities are hard
  assertion failures;
* a non-`CAP` message is returned to the caller unconsumed;
* a `CAP` message with no params fails `assertGreater`;
* `CAP REQ <names>` (exactly two params) replies NAK — with the first
  100 characters of `<names>` — when the requested set is not a subset
  of the advertised names, leaving `acked_capabilities` unchanged, and
  otherwise replies ACK with `<names>` verbatim, adding every requested
  name to `acked_capabilities`; either way the loop continues;
* any other `CAP` message (`END` included) is returned unconsumed. -/
def negotiateLoop (capability_names : Finset Chars) (st : NegState) :
    List Message → NegOutcome
  | [] => .blocked
  | m :: rest =>
    if m.command = toL "NICK" then
      if m.params.length ≠ 1 then .assertFail (toL "NICK arity")
      else
        negotiateLoop capability_names
          ⟨some (m.params.getD 0 []), st.user, st.acked_capabilities⟩ rest
    else if m.command = toL "USER" then
      if m.params.length ≠ 4 then .assertFail (toL "USER arity")
      else
        negotiateLoop capability_names
          ⟨st.nick, some m.params, st.acked_capabilities⟩ rest
    else if m.command ≠ toL "CAP" then .ok ⟨m, st, []⟩
    else if m.params.length = 0 then .assertFail (toL "CAP without params")
    else if m.params.getD 0 [] = toL "REQ" then
      if m.params.length ≠ 2 then .assertFail (toL "REQ arity")
      else
        let names := m.params.getD 1 []
        let requested : Finset Chars := (splitWs names).toFinset
        if ¬ requested ⊆ capability_names then
          consSent (capReplyLine (orStar st.nick) (toL "NAK") (names.take 100))
            (negotiateLoop capability_names st rest)
        else
          consSent (capReplyLine (orStar st.nick) (toL "ACK") names)
            (negotiateLoop capability_names
              ⟨st.nick, st.user, st.acked_capabilities ∪ requested⟩ rest)
    else .ok ⟨m, st, []⟩

/-- A message `userNickPredicate` consumes without failing: a `NICK`
with exactly one parameter or a `USER` with exactly four. -/
def nickUserOk (m : Message) : Prop :=
  (m.command = toL "NICK" ∧ m.params.length = 1) ∨
  (m.command = toL "USER" ∧ m.params.length = 4)

instance (m : Message) : Decidable (nickUserOk m) := by
  unfold nickUserOk; infer_instance

/-- Embeds `negotiateCapabilities` (cases.py:158–187) on its `cap_ls =
True` path: `readCapLs` on the first message; a falsy protocol version
returns with no negotiation; otherwise the advertised list is sent as
`CAP * LS :<space-joined caps>` and the loop runs from a fresh state
(`self.nick`/`self.user` start as `None`, `self.acked_capabilities` as
the empty set).  The result carries the `readCapLs` outcome, the loop
outcome when the loop ran, and the lines sent before the loop. -/
def negotiateCapabilities (caps : List Chars) (first : Message)
    (stream : List Message) : CapLsOutcome × Option NegOutcome × List Chars :=
  match readCapLs first with
  | .fail r => (.fail r, none, [])
  | .ok none => (.ok none, none, [])
  | .ok (some v) =>
      (.ok (some v),
       some (negotiateLoop (capabilityNames caps) ⟨none, none, ∅⟩ stream),
       [toL "CAP * LS :" ++ joinSep ' ' caps])

/-! ## Assertion helpers (cases.py: `_IrcTestCase`, `BaseServerTestCase`) -/

/-- The message attributes a test can name as a keyword comparison in
`assertMessageEqual` (`getattr(msg, key)`). -/
inductive MsgAttr
  | command
  | origin
  | tags
  | params
deriving DecidableEq

/-- The value such an attribute comparison expects. -/
inductive AttrVal
  | str (s : Chars)
  | optStr (o : Option Chars)
  | tagsV (t : List (Chars × Chars))
  | strList (l : List Chars)
deriving DecidableEq

/-- `getattr(msg, key)` for the comparable attributes. -/
def getattrM (m : Message) : MsgAttr → AttrVal
  | .command => .str m.command
  | .origin => .optStr m.origin
  | .tags => .tagsV m.tags
  | .params => .strList m.params

/-- Display name of an attribute, for failure reporting. -/
def attrName : MsgAttr → Chars
  | .command => toL "command"
  | .origin => toL "source"
  | .tags => toL "tags"
  | .params => toL "params"

/-- The `for (key, value) in kwargs.items()` loop of
`assertMessageEqual` (cases.py:43–44): `assertEqual` raises on the
first mismatching attribute. -/
def firstKwargMismatch (m : Message) : List (MsgAttr × AttrVal) → Option MsgAttr
  | [] => none
  | (a, v) :: rest =>
    if getattrM m a ≠ v then some a else firstKwargMismatch m rest

/-- Result of `assertMessageEqual`: a hard failure (an `assertEqual` or
`assertGreater` raising outside any `subTest`) aborts the call; sub-test
failures are collected — the empty list is a pass. -/
inductive AMEResult
  | hardFail (which : Chars)
  | subFailures (keys : List Chars)
deriving DecidableEq

/-- Embeds `_IrcTestCase.assertMessageEqual` (cases.py:34–55).  The
keyword comparisons run first and raise on the first mismatch.  The
subcommand-aware mode is entered iff `subcommand` or `subparams` is
provided (`is not None`) — `target` does not trigger it; it requires
`len(msg.params) > 2` (`assertGreater`), binds `msg.params[0]` to a
target variable that is never compared to the `target` argument, and
then, each inside its own `subTest`, compares `msg.params[1]` with
`subcommand` when the latter is truthy (non-empty) and `msg.params[2:]`
with `subparams` when the latter is provided, so both mismatches are
collected when both diverge. -/
def assertMessageEqual (msg : Message) (subcommand : Option Chars)
    (subparams : Option (List Chars)) (target : Option Chars)
    (kwargs : List (MsgAttr × AttrVal)) : AMEResult :=
  match firstKwargMismatch msg kwargs with
  | some a => .hardFail (attrName a)
  | none =>
    if subcommand.isSome || subparams.isSome then
      if msg.params.length ≤ 2 then .hardFail (toL "assertGreater")
      else
        let _msg_target := msg.params.getD 0 []
        let msg_subcommand := msg.params.getD 1 []
        let msg_subparams := msg.params.drop 2
        .subFailures
          ((match subcommand with
            | some s =>
              if s ≠ [] then
                if msg_subcommand ≠ s then [toL "subcommand"] else []
              else []
            | none => []) ++
           (match subparams with
            | some sp => if msg_subparams ≠ sp then [toL "subparams"] else []
            | none => []))
    else .subFailures []

/-- One read attempt inside `assertDisconnected`'s loop: `getLine`
either yields a line or raises a connection error (`socket.error`). -/
inductive ReadEv
  | line (l : Chars)
  | connError
deriving DecidableEq

/-- Outcome of `assertDisconnected`. -/
inductive DiscOutcome
  | passed
  | nameError (missing : Chars)
  | assertionFailure (reason : Chars)
  | blocked
deriving DecidableEq

/-- Embeds `BaseServerTestCase.assertDisconnected` (cases.py:257–271)
over the sequence of read outcomes after the `PING foo` probe (the
initial drain and the probe write are the preceding side effects; the
per-client reads live in the absent `client_mock` module and are
modelled from the spec, §4.2).  A read raising `socket.error` is caught
and the assertion passes.  A read that yields a line reaches
`self.assertNotEqual(line, '')` — but the read was bound to `l`, and no
name `line` is in scope, so Python raises `NameError: name 'line' is
not defined`, which `except socket.error` does not catch; the
`assertNotEqual(m.command, 'PONG', 'Client not disconnected.')` two
lines below is unreachable for every successfully read line. -/
def assertDisconnected (reads : List ReadEv) : DiscOutcome :=
  match reads with
  | [] => .blocked
  | .connError :: _ => .passed
  | .line _ :: _ => .nameError (toL "line")

/-! ## General list lemmas -/

theorem takeWhile_all {α : Type} (p : α → Bool) (l : List α)
    (h : ∀ x ∈ l, p x = true) : l.takeWhile p = l := by
  induction l with
  | nil => rfl
  | cons a as ih =>
    rw [List.takeWhile_cons_of_pos (h a (by simp))]
    rw [ih fun x hx => h x (by simp [hx])]

theorem dropWhile_all {α : Type} (p : α → Bool) (l : List α)
    (h : ∀ x ∈ l, p x = true) : l.dropWhile p = [] := by
  induction l with
  | nil => rfl
  | cons a as ih =>
    rw [List.dropWhile_cons_of_pos (h a (by simp))]
    exact ih fun x hx => h x (by simp [hx])

theorem takeWhile_append_stop {α : Type} (p : α → Bool) (l : List α)
    (c : α) (r : List α) (hl : ∀ x ∈ l, p x = true) (hc : p c = false) :
    (l ++ c :: r).takeWhile p = l := by
  induction l with
  | nil => simpa using @List.takeWhile_cons_of_neg α p c r (by simp [hc])
  | cons a as ih =>
    rw [List.cons_append, List.takeWhile_cons_of_pos (hl a (by simp))]
    rw [ih fun x hx => hl x (by simp [hx])]

theorem dropWhile_append_stop {α : Type} (p : α → Bool) (l : List α)
    (c : α) (r : List α) (hl : ∀ x ∈ l, p x = true) (hc : p c = false) :
    (l ++ c :: r).dropWhile p = c :: r := by
  induction l with
  | nil => simpa using @List.dropWhile_cons_of_neg α p c r (by simp [hc])
  | cons a as ih =>
    rw [List.cons_append, List.dropWhile_cons_of_pos (hl a (by simp))]
    exact ih fun x hx => hl x (by simp [hx])

/-! ## C8: sendLine's CRLF discipline -/

theorem stripCrlfOnce_spec (l : Chars) :
    (endsWithCrlf l = true ∧ l = stripCrlfOnce l ++ crlf) ∨
    (endsWithCrlf l = false ∧ stripCrlfOnce l = l) := by
  have hl : l = l.reverse.reverse := (List.reverse_reverse l).symm
  cases hr : l.reverse with
  | nil =>
    exact Or.inr ⟨by simp [endsWithCrlf, hr], by simp [stripCrlfOnce, hr]⟩
  | cons a rest =>
    cases rest with
    | nil =>
      exact Or.inr ⟨by simp [endsWithCrlf, hr], by simp [stripCrlfOnce, hr]⟩
    | cons b t =>
      by_cases hab : (a = '\n' && b = '\r') = true
      · obtain ⟨ha, hb⟩ : a = '\n' ∧ b = '\r' := by simpa using hab
        refine Or.inl ⟨by simp [endsWithCrlf, hr, hab], ?_⟩
        conv_lhs => rw [hl, hr]
        simp [stripCrlfOnce, hr, hab, crlf, ha, hb]
      · refine Or.inr ⟨?_, by simp [stripCrlfOnce, hr, hab]⟩
        simp [endsWithCrlf, hr]
        simpa using hab

theorem endsWithCrlf_append_crlf (l : Chars) :
    endsWithCrlf (l ++ crlf) = true := by
  simp [endsWithCrlf, crlf, List.reverse_append]

/-- C8: `sendLine` writes the line to the socket and, exactly when the
line does not already end with CRLF, additionally writes CRLF; the byte
stream put on the socket for the call is therefore the line's payload
followed by a single CRLF in every case (CRLF is never doubled: when
the line already carries its terminator nothing is appended). -/
theorem sendLine_crlf_discipline (line : Chars) :
    (endsWithCrlf line = false →
       sendLineCalls line = [line, crlf] ∧ bytesSent line = line ++ crlf)
  ∧ (endsWithCrlf line = true →
       sendLineCalls line = [line] ∧ bytesSent line = line)
  ∧ bytesSent line = stripCrlfOnce line ++ crlf
  ∧ endsWithCrlf (bytesSent line) = true := by
  rcases stripCrlfOnce_spec line with ⟨he, heq⟩ | ⟨he, heq⟩
  · refine ⟨by simp [he], fun _ => ⟨by simp [sendLineCalls, he],
      by simp [bytesSent, sendLineCalls, he]⟩, ?_, ?_⟩
    · rw [show bytesSent line = line by simp [bytesSent, sendLineCalls, he]]
      exact heq
    · rw [show bytesSent line = line by simp [bytesSent, sendLineCalls, he]]
      exact he
  · have hb : bytesSent line = line ++ crlf := by
      simp [bytesSent, sendLineCalls, he]
    refine ⟨fun _ => ⟨by simp [sendLineCalls, he], hb⟩, by simp [he], ?_, ?_⟩
    · rw [hb, heq]
    · rw [hb]; exact endsWithCrlf_append_crlf line

/-- Witness for C8 at concrete lines: a line without CRLF gets exactly
one CRLF appended; a line already ending in CRLF is sent unchanged. -/
theorem sendLine_crlf_discipline_witness :
    bytesSent (toL "PING a") = toL "PING a" ++ crlf
  ∧ bytesSent (toL "PING a\r\n") = toL "PING a\r\n" :=
  ⟨((sendLine_crlf_discipline (toL "PING a")).1 (by decide)).2,
   (((sendLine_crlf_discipline (toL "PING a\r\n")).2.1) (by decide)).2⟩

/-! ## C2: readCapLs on the first message -/

/-- C2: `readCapLs` fails with a hard assertion failure precisely when
the first message is not a `CAP` command or its params are not exactly
one of `["LS"]`, `["LS","302"]`, `["END"]`; on success the recorded
protocol version is 301 for `["LS"]`, 302 for `["LS","302"]`, and none
(no negotiation) for `["END"]`. -/
theorem readCapLs_spec (m : Message) :
    ((∃ s, readCapLs m = .fail s) ↔
       ¬ (m.command = toL "CAP" ∧
          (m.params = [toL "LS"] ∨ m.params = [toL "LS", toL "302"] ∨
           m.params = [toL "END"])))
  ∧ (m.command = toL "CAP" →
       (m.params = [toL "LS"] → readCapLs m = .ok (some 301))
     ∧ (m.params = [toL "LS", toL "302"] → readCapLs m = .ok (some 302))
     ∧ (m.params = [toL "END"] → readCapLs m = .ok none)) := by
  unfold readCapLs
  split_ifs with h1 h2 h3 h4 <;> constructor <;> simp_all [h1]
  all_goals first
  | exact ⟨_, rfl⟩
  | decide

/-- Witness for C2 at a concrete first message: `CAP LS 302` records
protocol version 302. -/
theorem readCapLs_spec_witness :
    readCapLs ⟨[], none, toL "CAP", [toL "LS", toL "302"]⟩
      = CapLsOutcome.ok (some 302) :=
  (((readCapLs_spec ⟨[], none, toL "CAP", [toL "LS", toL "302"]⟩).2
      (by decide)).2).1 (by decide)

/-! ## C3: getLine and the line terminator -/

/-- C3 counterexample: `getLine` hands the terminator-bearing line to
its caller — `conn_file.readline()` is returned unchanged, the CRLF is
not stripped — and at EOF (peer closed, buffer drained) it returns the
empty string instead of failing with a connection error. -/
theorem getLine_counterexample :
    (getLine (toL "PING :foo\r\n")).1 ≠ toL "PING :foo"
  ∧ (getLine (toL "PING :foo\r\n")).1 = toL "PING :foo\r\n"
  ∧ getLine [] = ([], []) := by decide

/-- C3 as amended: `getLine` returns the next complete line from the
socket with its CRLF terminator still attached (stripping is left to
the message parser), and on EOF it returns the empty string without
raising. -/
theorem getLine_amended (content rest : Chars)
    (h : containsCrlf content = false) :
    getLine (content ++ '\r' :: '\n' :: rest) = (content ++ crlf, rest)
  ∧ getLine [] = ([], []) := by
  refine ⟨?_, rfl⟩
  unfold getLine crlf
  induction content with
  | nil => simp [readline]
  | cons c cs ih =>
    cases cs with
    | nil =>
      have h2 : readline ('\r' :: '\n' :: rest) = (['\r', '\n'], rest) := by
        simp [readline]
      by_cases hc : c = '\r'
      · simp [readline, hc, h2]
      · simp [readline, hc, h2]
    | cons d ds =>
      have hcd : (c = '\r' && d = '\n') = false := by
        have := h
        unfold containsCrlf at this
        rcases Bool.or_eq_false_iff.mp this with ⟨h1, _⟩
        exact h1
      have hrec : containsCrlf (d :: ds) = false := by
        have := h
        unfold containsCrlf at this
        exact (Bool.or_eq_false_iff.mp this).2
      have ihd := ih hrec
      simp only [List.cons_append] at ihd ⊢
      rw [readline.eq_def]
      simp only [hcd, Bool.false_eq_true, if_false]
      rw [ihd]

/-- Witness for the amended C3 at a concrete buffer. -/
theorem getLine_amended_witness :
    getLine (toL "PING :foo" ++ '\r' :: '\n' :: toL "NEXT\r\n")
      = (toL "PING :foo" ++ crlf, toL "NEXT\r\n")
  ∧ getLine [] = ([], []) :=
  getLine_amended (toL "PING :foo") (toL "NEXT\r\n") (by decide)

/-! ## C10: the target argument of assertMessageEqual is inert -/

/-- C10: calling `assertMessageEqual` with only `target` provided
performs no comparison and passes — `target` does not trigger the
subcommand-aware mode — and more generally the result never depends on
the `target` argument: `msg.params[0]` is never compared against it. -/
theorem assertMessageEqual_target_unused (msg : Message) (t : Option Chars) :
    assertMessageEqual msg none none t [] = .subFailures []
  ∧ ∀ (s : Option Chars) (sp : Option (List Chars)) (t2 : Option Chars)
      (kwargs : List (MsgAttr × AttrVal)),
      assertMessageEqual msg s sp t kwargs
        = assertMessageEqual msg s sp t2 kwargs := by
  exact ⟨rfl, fun s sp t2 kwargs => rfl⟩

/-! ## C9: the subcommand-aware mode of assertMessageEqual -/

/-- C9 counterexample: invoked with an (empty) expected subcommand and
an expected subparams list that both diverge from the message, only the
`subparams` mismatch is reported — Python's `if subcommand:` skips the
subcommand comparison for the empty string, so the claim's "both
mismatches are reported" fails. -/
theorem assertMessageEqual_counterexample :
    assertMessageEqual ⟨[], none, toL "CAP", [toL "*", toL "LS", toL "x"]⟩
        (some []) (some [toL "y"]) none []
      = .subFailures [toL "subparams"]
  ∧ (⟨[], none, toL "CAP", [toL "*", toL "LS", toL "x"]⟩ :
        Message).params.getD 1 [] ≠ ([] : Chars)
  ∧ (⟨[], none, toL "CAP", [toL "*", toL "LS", toL "x"]⟩ :
        Message).params.drop 2 ≠ [toL "y"] := by decide

/-- C9 as amended: with an expected subcommand or expected subparams
provided, `assertMessageEqual` first requires strictly more than two
params (failing hard otherwise), then treats `params[1]` as the
subcommand and `params[2:]` as the subparams; it checks subcommand
equality when the expected subcommand is non-empty and subparams
equality whenever subparams is provided, independently, so that when
both checks run and both diverge, both mismatches are reported. -/
theorem assertMessageEqual_submode (msg : Message) (t : Option Chars)
    (kwargs : List (MsgAttr × AttrVal))
    (hk : firstKwargMismatch msg kwargs = none) :
    (∀ (s : Option Chars) (sp : Option (List Chars)),
       (s.isSome ∨ sp.isSome) → msg.params.length ≤ 2 →
       assertMessageEqual msg s sp t kwargs = .hardFail (toL "assertGreater"))
  ∧ (∀ (s0 : Chars) (sp0 : List Chars),
       2 < msg.params.length → s0 ≠ [] →
       msg.params.getD 1 [] ≠ s0 → msg.params.drop 2 ≠ sp0 →
       assertMessageEqual msg (some s0) (some sp0) t kwargs
         = .subFailures [toL "subcommand", toL "subparams"]) := by
  constructor
  · intro s sp hs hlen
    have hsome : (s.isSome || sp.isSome) = true := by
      rcases hs with h | h <;> simp [h]
    unfold assertMessageEqual
    rw [hk]
    simp [hsome, hlen]
  · intro s0 sp0 hlen hne hsub hsp
    unfold assertMessageEqual
    rw [hk]
    have hnle : ¬ msg.params.length ≤ 2 := by omega
    rw [List.getD_eq_getElem?_getD] at hsub
    simp [hnle, hne, hsub, hsp]

/-- Witness for the amended C9: a concrete message where both the
subcommand and the subparams diverge, and both failures are reported. -/
theorem assertMessageEqual_submode_witness :
    assertMessageEqual ⟨[], none, toL "CAP", [toL "*", toL "LS", toL "x"]⟩
        (some (toL "ACK")) (some [toL "y"]) none []
      = .subFailures [toL "subcommand", toL "subparams"] :=
  (assertMessageEqual_submode ⟨[], none, toL "CAP", [toL "*", toL "LS", toL "x"]⟩
      none [] rfl).2 (toL "ACK") [toL "y"]
    (by decide) (by decide) (by decide) (by decide)

/-! ## C4: assertDisconnected -/

/-- C4: the code cannot report the claim's assertion. A read that
succeeds — a `PONG` reply to the probe included — reaches
`self.assertNotEqual(line, '')` where the name `line` is unbound (the
read was bound to `l`), so Python raises `NameError`, not the
`AssertionError('Client not disconnected.')` the claim (and the
unreachable assertion two lines below) describe; a read raising a
connection error still passes, and a `PONG` never yields a pass. -/
theorem assertDisconnected_nameError :
    assertDisconnected [ReadEv.line (toL "PONG foo")]
      = .nameError (toL "line")
  ∧ assertDisconnected [ReadEv.line (toL "PONG foo")]
      ≠ .assertionFailure (toL "Client not disconnected.")
  ∧ assertDisconnected [ReadEv.connError] = .passed
  ∧ assertDisconnected [ReadEv.line (toL "PONG foo")] ≠ .passed := by
  decide

/-! ## C5: getMessage's filter predicate -/

/-- C5: `getMessage` with a predicate that returns true on the first
parsed message returns exactly what `getMessage` with no predicate
returns on the same stream; in general a filtered `getMessage` returns
the first parsed message satisfying the predicate, silently discarding
every earlier message on which it returned false. -/
theorem getMessage_filter_spec (p : Message → Bool) :
    (∀ (l : Chars) (rest : List Chars) (m : Message),
       parse_message l = .ok m → p m = true →
       getMessage (some p) (l :: rest) = getMessage none (l :: rest))
  ∧ (∀ (lines : List Chars) (msgs : List Message),
       parsesTo lines msgs →
       getMessage (some p) lines = firstMatch p msgs) := by
  constructor
  · intro l rest m hparse hp
    simp [getMessage, hparse, hp]
  · intro lines
    induction lines with
    | nil =>
      intro msgs h
      unfold parsesTo at h
      simp only [List.map_nil] at h
      obtain rfl : msgs = [] := by
        cases msgs with
        | nil => rfl
        | cons a l => simp at h
      rfl
    | cons l rest ih =>
      intro msgs h
      unfold parsesTo at h
      cases msgs with
      | nil => simp at h
      | cons m ms =>
        simp only [List.map_cons, List.cons.injEq] at h
        obtain ⟨hparse, hrest⟩ := h
        cases hpm : p m with
        | true =>
          simp [getMessage, hparse, hpm, firstMatch,
            List.find?_cons_of_pos _ hpm]
        | false =>
          have hih := ih ms hrest
          rw [show getMessage (some p) (l :: rest) = getMessage (some p) rest
            by simp [getMessage, hparse, hpm]]
          rw [hih]
          unfold firstMatch
          rw [List.find?_cons_of_neg _ (by simp [hpm])]

/-- Witness for C5 at a concrete stream: a predicate true on the first
parsed message makes the filtered and unfiltered reads agree. -/
theorem getMessage_filter_spec_witness :
    getMessage (some fun m => decide (m.command = toL "PONG"))
        [toL "PONG foo"]
      = getMessage none [toL "PONG foo"] :=
  (getMessage_filter_spec fun m => decide (m.command = toL "PONG")).1
    (toL "PONG foo") [] ⟨[], none, toL "PONG", [toL "foo"]⟩
    (by decide) (by decide)

/-! ## C1: the CAP REQ step of the negotiation loop -/

/-- C1: on a `CAP REQ <names>` message during `negotiateCapabilities`,
with `requested` the set of space-separated names: if `requested` is
not a subset of the advertised capability names, the helper sends
`CAP <nick-or-*> NAK :` followed by the first 100 characters of
`<names>` and leaves `acked_capabilities` unchanged; otherwise it sends
`CAP <nick-or-*> ACK :<names>` verbatim and adds every requested name
to `acked_capabilities`; in both cases the loop continues on the rest
of the stream. -/
theorem negotiateLoop_req_step (capability_names : Finset Chars)
    (st : NegState) (tg : List (Chars × Chars)) (src : Option Chars)
    (names : Chars) (rest : List Message) :
    (¬ (splitWs names).toFinset ⊆ capability_names →
       negotiateLoop capability_names st
           (⟨tg, src, toL "CAP", [toL "REQ", names]⟩ :: rest)
         = consSent
             (capReplyLine (orStar st.nick) (toL "NAK") (names.take 100))
             (negotiateLoop capability_names st rest))
  ∧ ((splitWs names).toFinset ⊆ capability_names →
       negotiateLoop capability_names st
           (⟨tg, src, toL "CAP", [toL "REQ", names]⟩ :: rest)
         = consSent (capReplyLine (orStar st.nick) (toL "ACK") names)
             (negotiateLoop capability_names
               ⟨st.nick, st.user,
                st.acked_capabilities ∪ (splitWs names).toFinset⟩
               rest)) := by
  have key : negotiateLoop capability_names st
      (⟨tg, src, toL "CAP", [toL "REQ", names]⟩ :: rest)
    = if ¬ (splitWs names).toFinset ⊆ capability_names then
        consSent (capReplyLine (orStar st.nick) (toL "NAK") (names.take 100))
          (negotiateLoop capability_names st rest)
      else
        consSent (capReplyLine (orStar st.nick) (toL "ACK") names)
          (negotiateLoop capability_names
            ⟨st.nick, st.user,
             st.acked_capabilities ∪ (splitWs names).toFinset⟩ rest) := by
    simp only [negotiateLoop]
    rw [if_neg (by decide : ¬ (toL "CAP" = toL "NICK"))]
    rw [if_neg (by decide : ¬ (toL "CAP" = toL "USER"))]
    rw [if_neg (by decide : ¬ (toL "CAP" ≠ toL "CAP"))]
    rw [if_neg (by simp : ¬ ([toL "REQ", names].length = 0))]
    rw [if_pos (by simp [List.getD_cons_zero] :
      [toL "REQ", names].getD 0 [] = toL "REQ")]
    rw [if_neg (by simp : ¬ ([toL "REQ", names].length ≠ 2))]
    simp only [List.getD_cons_succ, List.getD_cons_zero]
  constructor <;> intro h
  · rw [key, if_pos h]
  · rw [key, if_neg (not_not_intro h)]

/-- Witness for C1 at the spec's example: advertised
`{"sasl","message-tags"}` and a REQ of `"sasl message-tags"` yield an
ACK carrying the names verbatim and the requested names are added to
the acknowledged set. -/
theorem negotiateLoop_req_step_witness :
    negotiateLoop (capabilityNames [toL "sasl", toL "message-tags"])
        ⟨none, none, ∅⟩
        (⟨[], none, toL "CAP", [toL "REQ", toL "sasl message-tags"]⟩ :: [])
      = consSent
          (capReplyLine (orStar none) (toL "ACK") (toL "sasl message-tags"))
          (negotiateLoop (capabilityNames [toL "sasl", toL "message-tags"])
            ⟨none, none, ∅ ∪ (splitWs (toL "sasl message-tags")).toFinset⟩
            []) :=
  (negotiateLoop_req_step (capabilityNames [toL "sasl", toL "message-tags"])
      ⟨none, none, ∅⟩ [] none (toL "sasl message-tags") []).2 (by decide)

/-! ## C6: the negotiation loop returns non-REQ messages unconsumed -/

/-- C6: after reading through well-formed `NICK`/`USER` messages, the
first message that is not a `CAP` command, or is a `CAP` command whose
first parameter is not `REQ` — `CAP END` in particular — is returned to
the caller unconsumed, and the acknowledged-capabilities set is not
modified by that returning step. -/
theorem negotiateLoop_returns_first (capability_names : Finset Chars)
    (st : NegState) (pre : List Message) (m : Message) (rest : List Message)
    (hpre : ∀ x ∈ pre, nickUserOk x)
    (hn : m.command ≠ toL "NICK") (hu : m.command ≠ toL "USER")
    (h : m.command ≠ toL "CAP" ∨
         (m.params ≠ [] ∧ m.params.getD 0 [] ≠ toL "REQ")) :
    ∃ st2 : NegState,
      negotiateLoop capability_names st (pre ++ m :: rest) = .ok ⟨m, st2, []⟩
      ∧ st2.acked_capabilities = st.acked_capabilities := by
  induction pre generalizing st with
  | nil =>
    refine ⟨st, ?_, rfl⟩
    simp only [List.nil_append, negotiateLoop]
    rw [if_neg hn, if_neg hu]
    by_cases hc : m.command = toL "CAP"
    · rcases h with h | ⟨hne, hreq⟩
      · exact absurd hc h
      · rw [if_neg (not_not_intro hc)]
        rw [if_neg (by simpa [List.length_eq_zero] using hne)]
        rw [if_neg hreq]
    · rw [if_pos hc]
  | cons x pre ih =>
    have hx := hpre x (by simp)
    have hpre2 : ∀ y ∈ pre, nickUserOk y := fun y hy => hpre y (by simp [hy])
    rcases hx with ⟨hxc, hxlen⟩ | ⟨hxc, hxlen⟩
    · simp only [List.cons_append, negotiateLoop]
      rw [if_pos hxc, if_neg (not_not_intro hxlen)]
      exact ih ⟨some (x.params.getD 0 []), st.user, st.acked_capabilities⟩ hpre2
    · simp only [List.cons_append, negotiateLoop]
      rw [if_neg (by rw [hxc]; decide), if_pos hxc,
        if_neg (not_not_intro hxlen)]
      exact ih ⟨st.nick, some x.params, st.acked_capabilities⟩ hpre2

/-- Witness for C6: after an interleaved `NICK`, a `CAP END` message is
returned unconsumed with the acknowledged set untouched. -/
theorem negotiateLoop_returns_first_witness :
    ∃ st2 : NegState,
      negotiateLoop ∅ ⟨none, none, ∅⟩
          ([⟨[], none, toL "NICK", [toL "foo"]⟩] ++
            ⟨[], none, toL "CAP", [toL "END"]⟩ :: [])
        = .ok ⟨⟨[], none, toL "CAP", [toL "END"]⟩, st2, []⟩
      ∧ st2.acked_capabilities
          = (⟨none, none, ∅⟩ : NegState).acked_capabilities :=
  negotiateLoop_returns_first ∅ ⟨none, none, ∅⟩
    [⟨[], none, toL "NICK", [toL "foo"]⟩]
    ⟨[], none, toL "CAP", [toL "END"]⟩ []
    (by decide) (by decide) (by decide) (by decide)

/-! ## C7: round-trip of parse and serialize -/

theorem escapeTagValue_not_space (v : Chars) : ' ' ∉ escapeTagValue v := by
  induction v with
  | nil => simp [escapeTagValue]
  | cons c cs ih =>
    unfold escapeTagValue
    split_ifs with h1 h2 h3 h4 h5 <;> intro hm <;>
      rcases List.mem_append.mp hm with hx | hx <;>
      first
      | exact ih hx
      | exact absurd hx (by decide)
      | (simp only [List.mem_singleton] at hx; exact h2 hx.symm)

theorem escapeTagValue_not_semi (v : Chars) : ';' ∉ escapeTagValue v := by
  induction v with
  | nil => simp [escapeTagValue]
  | cons c cs ih =>
    unfold escapeTagValue
    split_ifs with h1 h2 h3 h4 h5 <;> intro hm <;>
      rcases List.mem_append.mp hm with hx | hx <;>
      first
      | exact ih hx
      | exact absurd hx (by decide)
      | (simp only [List.mem_singleton] at hx; exact h1 hx.symm)

theorem unescape_escape (v : Chars) :
    unescapeTagValue (escapeTagValue v) = v := by
  induction v with
  | nil => rfl
  | cons c cs ih =>
    unfold escapeTagValue
    split_ifs with h1 h2 h3 h4 h5
    · subst h1; simp [unescapeTagValue, ih]
    · subst h2; simp [unescapeTagValue, ih]
    · subst h3; simp [unescapeTagValue, ih]
    · subst h4; simp [unescapeTagValue, ih]
    · subst h5; simp [unescapeTagValue, ih]
    · simp only [List.cons_append, List.nil_append]
      unfold unescapeTagValue
      rw [if_neg h3, ih]

theorem splitSep_no_sep (sep : Char) (x : Chars) (h : sep ∉ x) :
    splitSep sep x = [x] := by
  induction x with
  | nil => rfl
  | cons c cs ih =>
    have hc : ¬ c = sep := by
      intro hcs
      exact h (by simp [hcs])
    unfold splitSep
    rw [if_neg hc, ih (fun hm => h (by simp [hm]))]

theorem splitSep_append_sep (sep : Char) (x r : Chars) (h : sep ∉ x) :
    splitSep sep (x ++ sep :: r) = x :: splitSep sep r := by
  induction x with
  | nil => simp [splitSep]
  | cons c cs ih =>
    have hc : ¬ c = sep := fun hcs => h (by simp [hcs])
    rw [List.cons_append, splitSep, if_neg hc,
      ih fun hm => h (by simp [hm])]

theorem splitSep_joinSep (sep : Char) (pieces : List Chars)
    (hne : pieces ≠ []) (h : ∀ l ∈ pieces, sep ∉ l) :
    splitSep sep (joinSep sep pieces) = pieces := by
  induction pieces with
  | nil => exact absurd rfl hne
  | cons x xs ih =>
    cases xs with
    | nil =>
      unfold joinSep
      exact splitSep_no_sep sep x (h x (by simp))
    | cons y ys =>
      unfold joinSep
      rw [splitSep_append_sep sep x _ (h x (by simp))]
      rw [ih (by simp) fun l hl => h l (by simp [hl])]

theorem joinSep_not_mem (sep : Char) (a : Char) (pieces : List Chars)
    (hsep : a ≠ sep) (h : ∀ l ∈ pieces, a ∉ l) :
    a ∉ joinSep sep pieces := by
  induction pieces with
  | nil => simp [joinSep]
  | cons x xs ih =>
    cases xs with
    | nil => exact h x (by simp)
    | cons y ys =>
      unfold joinSep
      intro hm
      rcases List.mem_append.mp hm with hm | hm
      · exact h x (by simp) hm
      · rcases List.mem_cons.mp hm with hm | hm
        · exact hsep hm
        · exact ih (fun l hl => h l (by simp [hl])) hm

theorem parseTagEntry_serializeTag (k v : Chars)
    (hk : k ≠ []) (hkeq : '=' ∉ k) :
    parseTagEntry (serializeTag (k, v)) = .ok (k, v) := by
  unfold parseTagEntry serializeTag
  have htake : (k ++ '=' :: escapeTagValue v).takeWhile (· ≠ '=') = k :=
    takeWhile_append_stop _ k '=' _
      (fun x hx => by simp; intro he; exact hkeq (he ▸ hx)) (by simp)
  have hdrop : (k ++ '=' :: escapeTagValue v).dropWhile (· ≠ '=')
      = '=' :: escapeTagValue v :=
    dropWhile_append_stop _ k '=' _
      (fun x hx => by simp; intro he; exact hkeq (he ▸ hx)) (by simp)
  simp only [htake, hdrop, hk, if_neg hk]
  simp [unescape_escape]

theorem parseTagBlock_roundtrip (tags : List (Chars × Chars))
    (hne : tags ≠ [])
    (hkeys : ∀ kv ∈ tags, kv.1 ≠ [] ∧ ';' ∉ kv.1 ∧ '=' ∉ kv.1) :
    parseTagBlock (joinSep ';' (tags.map serializeTag)) = .ok tags := by
  unfold parseTagBlock
  rw [splitSep_joinSep ';' (tags.map serializeTag)
    (by simpa using hne)
    (by
      intro l hl
      obtain ⟨kv, hkv, rfl⟩ := List.mem_map.mp hl
      obtain ⟨-, hsemi, -⟩ := hkeys kv hkv
      unfold serializeTag
      intro hm
      rcases List.mem_append.mp hm with hm | hm
      · exact hsemi hm
      · rcases List.mem_cons.mp hm with hm | hm
        · exact absurd hm (by decide)
        · exact escapeTagValue_not_semi kv.2 hm)]
  clear hne
  induction tags with
  | nil => rfl
  | cons kv rest ih =>
    obtain ⟨hk, -, hkeq⟩ := hkeys kv (by simp)
    rw [List.map_cons, parseTagEntries,
      show parseTagEntry (serializeTag kv) = .ok kv from
        parseTagEntry_serializeTag kv.1 kv.2 hk hkeq,
      ih fun x hx => hkeys x (by simp [hx])]

theorem needsColon_false_facts (t : Chars) (h : needsColon t = false) :
    t ≠ [] ∧ ' ' ∉ t ∧ ¬ t.head? = some ':' := by
  unfold needsColon at h
  simp only [Bool.or_eq_false_iff] at h
  obtain ⟨⟨h1, h2⟩, h3⟩ := h
  refine ⟨by simpa [List.isEmpty_iff] using h1, by simpa using h3,
    by simpa using h2⟩

theorem dropSpaces_paramsBody (ps : List Chars) (hne : ps ≠ [])
    (hps : ∀ q ∈ ps.dropLast, q ≠ [] ∧ ' ' ∉ q ∧ ¬ q.head? = some ':') :
    (paramsBody ps).dropWhile (· = ' ') = paramsBody ps := by
  cases ps with
  | nil => exact absurd rfl hne
  | cons p ps2 =>
    cases ps2 with
    | nil =>
      by_cases hnc : needsColon p = true
      · simp only [paramsBody, if_pos hnc]
        exact List.dropWhile_cons_of_neg (by decide)
      · obtain ⟨hp1, hp2, -⟩ :=
          needsColon_false_facts p (by simpa using hnc)
        simp only [paramsBody, if_neg hnc]
        obtain ⟨c, cs, rfl⟩ := List.exists_cons_of_ne_nil hp1
        refine List.dropWhile_cons_of_neg ?_
        simp only [decide_eq_true_eq]
        exact fun he => hp2 (by simp [he])
    | cons q qs =>
      obtain ⟨hp1, hp2, -⟩ := hps p (by simp)
      simp only [paramsBody]
      obtain ⟨c, cs, rfl⟩ := List.exists_cons_of_ne_nil hp1
      rw [List.cons_append]
      refine List.dropWhile_cons_of_neg ?_
      simp only [decide_eq_true_eq]
      exact fun he => hp2 (by simp [he])

theorem tokenizeF_paramsBody (ps : List Chars) :
    ∀ fuel : Nat, ps ≠ [] →
      (∀ q ∈ ps.dropLast, q ≠ [] ∧ ' ' ∉ q ∧ ¬ q.head? = some ':') →
      (paramsBody ps).length ≤ fuel →
      tokenizeF fuel (paramsBody ps) = ps := by
  induction ps with
  | nil => exact fun fuel h => absurd rfl h
  | cons p ps ih =>
    intro fuel _ hlegal hfuel
    cases ps with
    | nil =>
      by_cases hnc : needsColon p = true
      · simp only [paramsBody, if_pos hnc] at hfuel ⊢
        cases fuel <;> rfl
      · obtain ⟨hp1, hp2, hp3⟩ :=
          needsColon_false_facts p (by simpa using hnc)
        simp only [paramsBody, if_neg hnc] at hfuel ⊢
        obtain ⟨c, cs, rfl⟩ := List.exists_cons_of_ne_nil hp1
        obtain ⟨f, rfl⟩ : ∃ f, fuel = f + 1 :=
          ⟨fuel - 1, by simp at hfuel; omega⟩
        rw [tokenizeF,
          if_neg (show ¬ c = ':' from fun he => hp3 (by simp [he]))]
        have ht : (c :: cs).takeWhile (· ≠ ' ') = c :: cs :=
          takeWhile_all _ _ (fun x hx => by
            simp only [decide_eq_true_eq]
            exact fun he => hp2 (he ▸ hx))
        have hd : (c :: cs).dropWhile (· ≠ ' ') = [] :=
          dropWhile_all _ _ (fun x hx => by
            simp only [decide_eq_true_eq]
            exact fun he => hp2 (he ▸ hx))
        rw [ht, hd]
        simp [tokenizeF]
    | cons q qs =>
      obtain ⟨hp1, hp2, hp3⟩ := hlegal p (by simp)
      simp only [paramsBody] at hfuel ⊢
      obtain ⟨c, cs, rfl⟩ := List.exists_cons_of_ne_nil hp1
      obtain ⟨f, rfl⟩ : ∃ f, fuel = f + 1 :=
        ⟨fuel - 1, by simp at hfuel; omega⟩
      rw [List.cons_append, tokenizeF,
        if_neg (show ¬ c = ':' from fun he => hp3 (by simp [he]))]
      have hnosp : ∀ x ∈ c :: cs, (x ≠ ' ' : Bool) = true := fun x hx => by
        simp only [decide_eq_true_eq]
        exact fun he => hp2 (he ▸ hx)
      have ht := takeWhile_append_stop (fun x => (x ≠ ' ' : Bool))
        (c :: cs) ' ' (paramsBody (q :: qs)) hnosp (by simp)
      have hd := dropWhile_append_stop (fun x => (x ≠ ' ' : Bool))
        (c :: cs) ' ' (paramsBody (q :: qs)) hnosp (by simp)
      rw [show (c :: (cs ++ ' ' :: paramsBody (q :: qs))).takeWhile (· ≠ ' ')
          = c :: cs from ht]
      rw [show (c :: (cs ++ ' ' :: paramsBody (q :: qs))).dropWhile (· ≠ ' ')
          = ' ' :: paramsBody (q :: qs) from hd]
      rw [List.dropWhile_cons_of_pos (by simp)]
      have hsub : ∀ x ∈ (q :: qs).dropLast,
          x ≠ [] ∧ ' ' ∉ x ∧ ¬ x.head? = some ':' := fun x hx =>
        hlegal x (List.mem_cons_of_mem _ hx)
      rw [dropSpaces_paramsBody (q :: qs) (by simp) hsub]
      rw [ih f (by simp) hsub (by
        simp only [List.length_append, List.length_cons] at hfuel
        omega)]

theorem parseCmdParams_cons_space (tags : List (Chars × Chars))
    (src : Option Chars) (cs : Chars) :
    parseCmdParams tags src (' ' :: cs) = parseCmdParams tags src cs := by
  unfold parseCmdParams
  rw [List.dropWhile_cons_of_pos (by simp)]

theorem parseCmdParams_roundtrip (tags : List (Chars × Chars))
    (src : Option Chars) (cmd : Chars) (ps : List Chars)
    (hcmd_ne : cmd ≠ []) (hcmd_sp : ' ' ∉ cmd)
    (hps : ∀ q ∈ ps.dropLast, q ≠ [] ∧ ' ' ∉ q ∧ ¬ q.head? = some ':') :
    parseCmdParams tags src (cmd ++ paramsSection ps)
      = .ok ⟨tags, src, cmd, ps⟩ := by
  obtain ⟨c, cs, rfl⟩ := List.exists_cons_of_ne_nil hcmd_ne
  have hnosp : ∀ x ∈ c :: cs, ((x ≠ ' ' : Bool)) = true := fun x hx => by
    simp only [decide_eq_true_eq]
    exact fun he => hcmd_sp (he ▸ hx)
  have hcne : ¬ ((c = ' ' : Bool) = true) := by
    simp only [decide_eq_true_eq]
    exact fun he => hcmd_sp (by simp [he])
  cases ps with
  | nil =>
    simp only [paramsSection, List.append_nil]
    unfold parseCmdParams
    rw [show (c :: cs : Chars).dropWhile (· = ' ') = c :: cs from
      List.dropWhile_cons_of_neg hcne]
    rw [takeWhile_all _ _ hnosp]
    rw [if_neg (by simp)]
    rw [dropWhile_all _ _ hnosp]
    rfl
  | cons q qs =>
    simp only [paramsSection]
    unfold parseCmdParams
    rw [List.cons_append]
    rw [show (c :: (cs ++ ' ' :: paramsBody (q :: qs))).dropWhile (· = ' ')
        = c :: (cs ++ ' ' :: paramsBody (q :: qs)) from
      List.dropWhile_cons_of_neg hcne]
    rw [show (c :: (cs ++ ' ' :: paramsBody (q :: qs))).takeWhile (· ≠ ' ')
        = c :: cs from
      takeWhile_append_stop _ (c :: cs) ' ' _ hnosp (by simp)]
    rw [if_neg (by simp)]
    rw [show (c :: (cs ++ ' ' :: paramsBody (q :: qs))).dropWhile (· ≠ ' ')
        = ' ' :: paramsBody (q :: qs) from
      dropWhile_append_stop _ (c :: cs) ' ' _ hnosp (by simp)]
    rw [List.dropWhile_cons_of_pos (by simp)]
    rw [dropSpaces_paramsBody (q :: qs) (by simp) hps]
    unfold tokenize
    rw [tokenizeF_paramsBody (q :: qs) (paramsBody (q :: qs)).length
      (by simp) hps le_rfl]

theorem parseAfterTags_roundtrip (tags : List (Chars × Chars))
    (src : Option Chars) (cmd : Chars) (ps : List Chars)
    (hsrc : ∀ p ∈ src.toList, ' ' ∉ p)
    (hcmd_ne : cmd ≠ []) (hcmd_sp : ' ' ∉ cmd)
    (hcmd_c : ¬ cmd.head? = some ':')
    (hps : ∀ q ∈ ps.dropLast, q ≠ [] ∧ ' ' ∉ q ∧ ¬ q.head? = some ':') :
    parseAfterTags tags (originSection src ++ (cmd ++ paramsSection ps))
      = .ok ⟨tags, src, cmd, ps⟩ := by
  cases src with
  | none =>
    simp only [originSection, List.nil_append]
    obtain ⟨c, cs, rfl⟩ := List.exists_cons_of_ne_nil hcmd_ne
    have hcne : ¬ ((c = ' ' : Bool) = true) := by
      simp only [decide_eq_true_eq]
      exact fun he => hcmd_sp (by simp [he])
    have hccolon : ¬ c = ':' := fun he => hcmd_c (by simp [he])
    rw [List.cons_append]
    simp only [parseAfterTags,
      show (c :: (cs ++ paramsSection ps)).dropWhile (· = ' ')
        = c :: (cs ++ paramsSection ps) from List.dropWhile_cons_of_neg hcne]
    rw [if_neg hccolon]
    exact parseCmdParams_roundtrip tags none (c :: cs) ps
      (by simp) hcmd_sp hps
  | some p =>
    have hsp : ' ' ∉ p := hsrc p (by simp)
    have hnosp_p : ∀ x ∈ p, ((x ≠ ' ' : Bool)) = true := fun x hx => by
      simp only [decide_eq_true_eq]
      exact fun he => hsp (he ▸ hx)
    rw [show originSection (some p) ++ (cmd ++ paramsSection ps)
        = ':' :: ((p ++ [' ']) ++ (cmd ++ paramsSection ps)) from rfl]
    rw [List.append_assoc]
    rw [show ([' '] ++ (cmd ++ paramsSection ps) : Chars)
        = ' ' :: (cmd ++ paramsSection ps) from rfl]
    simp only [parseAfterTags,
      show (':' :: (p ++ ' ' :: (cmd ++ paramsSection ps))).dropWhile (· = ' ')
        = ':' :: (p ++ ' ' :: (cmd ++ paramsSection ps)) from
      List.dropWhile_cons_of_neg (by decide)]
    rw [if_true]
    rw [takeWhile_append_stop _ p ' ' _ hnosp_p (by simp)]
    rw [dropWhile_append_stop _ p ' ' _ hnosp_p (by simp)]
    rw [parseCmdParams_cons_space]
    exact parseCmdParams_roundtrip tags (some p) cmd ps hcmd_ne hcmd_sp hps

theorem parse_serialize_fields (tags : List (Chars × Chars))
    (src : Option Chars) (cmd : Chars) (ps : List Chars)
    (htags : ∀ kv ∈ tags, kv.1 ≠ [] ∧ ';' ∉ kv.1 ∧ '=' ∉ kv.1 ∧ ' ' ∉ kv.1)
    (hsrc : ∀ p ∈ src.toList, ' ' ∉ p)
    (hcmd_ne : cmd ≠ []) (hcmd_sp : ' ' ∉ cmd)
    (hcmd_c : ¬ cmd.head? = some ':') (hcmd_at : ¬ cmd.head? = some '@')
    (hps : ∀ q ∈ ps.dropLast, q ≠ [] ∧ ' ' ∉ q ∧ ¬ q.head? = some ':') :
    parse_message
        (tagsSection tags ++ (originSection src ++ (cmd ++ paramsSection ps)))
      = .ok ⟨tags, src, cmd, ps⟩ := by
  cases tags with
  | nil =>
    simp only [tagsSection, List.nil_append]
    cases hsv : src with
    | none =>
      simp only [originSection, List.nil_append]
      obtain ⟨c, cs, rfl⟩ := List.exists_cons_of_ne_nil hcmd_ne
      have hcat : ¬ c = '@' := fun he => hcmd_at (by simp [he])
      rw [List.cons_append]
      simp only [parse_message]
      rw [if_neg hcat]
      have := parseAfterTags_roundtrip [] none (c :: cs) ps
        (by simp) hcmd_ne hcmd_sp hcmd_c hps
      simpa [originSection] using this
    | some p =>
      rw [show originSection (some p) ++ (cmd ++ paramsSection ps)
          = ':' :: ((p ++ [' ']) ++ (cmd ++ paramsSection ps)) from rfl]
      simp only [parse_message]
      rw [if_neg (by decide)]
      have := parseAfterTags_roundtrip [] (some p) cmd ps
        (by simpa [hsv] using hsrc) hcmd_ne hcmd_sp hcmd_c hps
      simpa [originSection] using this
  | cons t ts =>
    have hblock_nosemi : ∀ l ∈ (t :: ts).map serializeTag, ';' ∉ l := by
      intro l hl
      obtain ⟨kv, hkv, rfl⟩ := List.mem_map.mp hl
      obtain ⟨-, hsemi, -, -⟩ := htags kv hkv
      unfold serializeTag
      intro hm
      rcases List.mem_append.mp hm with hm | hm
      · exact hsemi hm
      · rcases List.mem_cons.mp hm with hm | hm
        · exact absurd hm (by decide)
        · exact escapeTagValue_not_semi kv.2 hm
    have hblock_nospace :
        ' ' ∉ joinSep ';' ((t :: ts).map serializeTag) := by
      refine joinSep_not_mem ';' ' ' _ (by decide) ?_
      intro l hl
      obtain ⟨kv, hkv, rfl⟩ := List.mem_map.mp hl
      obtain ⟨-, -, -, hspc⟩ := htags kv hkv
      unfold serializeTag
      intro hm
      rcases List.mem_append.mp hm with hm | hm
      · exact hspc hm
      · rcases List.mem_cons.mp hm with hm | hm
        · exact absurd hm (by decide)
        · exact escapeTagValue_not_space kv.2 hm
    have hblock_all : ∀ x ∈ joinSep ';' ((t :: ts).map serializeTag),
        ((x ≠ ' ' : Bool)) = true := fun x hx => by
      simp only [decide_eq_true_eq]
      exact fun he => hblock_nospace (he ▸ hx)
    rw [show tagsSection (t :: ts)
          ++ (originSection src ++ (cmd ++ paramsSection ps))
        = '@' :: ((joinSep ';' ((t :: ts).map serializeTag) ++ [' '])
          ++ (originSection src ++ (cmd ++ paramsSection ps))) from rfl]
    rw [List.append_assoc]
    rw [show ([' '] ++ (originSection src ++ (cmd ++ paramsSection ps))
          : Chars)
        = ' ' :: (originSection src ++ (cmd ++ paramsSection ps)) from rfl]
    simp only [parse_message]
    rw [if_true]
    rw [dropWhile_append_stop _ _ ' ' _ hblock_all (by simp)]
    rw [takeWhile_append_stop _ _ ' ' _ hblock_all (by simp)]
    rw [parseTagBlock_roundtrip (t :: ts) (by simp)
      (fun kv hkv => ⟨(htags kv hkv).1, (htags kv hkv).2.1,
        (htags kv hkv).2.2.1⟩)]
    exact parseAfterTags_roundtrip (t :: ts) src cmd ps hsrc
      hcmd_ne hcmd_sp hcmd_c hps

/-- C7 counterexample: under the claim's own reading of "legal" — any
optional source string, only non-emptiness required of the command —
the round-trip fails: a source containing a space serializes to a line
that parses back with a different source, command and params. -/
theorem parse_serialize_counterexample :
    parse_message (serialize ⟨[], some (toL "a b"), toL "CMD", []⟩)
      ≠ .ok ⟨[], some (toL "a b"), toL "CMD", []⟩
  ∧ parse_message (serialize ⟨[], some (toL "a b"), toL "CMD", []⟩)
      = .ok ⟨[], some (toL "a"), toL "b", [toL "CMD"]⟩ := by
  decide

/-- C7 as amended: for every wire-legal message — tag keys non-empty,
free of `;`, `=`, space, and distinct; source free of spaces; command
non-empty, space-free, not beginning with `:` or `@`; every parameter
but the last non-empty, space-free and not beginning with `:` (the last
parameter and all tag values arbitrary) — parsing the serialization
yields a message field-equal to the original in tags, source, command
and params. -/
theorem parse_serialize_roundtrip (m : Message) (h : LegalMessage m) :
    parse_message (serialize m) = .ok m := by
  obtain ⟨htags, -, hsrc, hcmd_ne, hcmd_sp, hcmd_c, hcmd_at, hps⟩ := h
  have key := parse_serialize_fields m.tags m.origin m.command m.params
    htags hsrc hcmd_ne hcmd_sp hcmd_c hcmd_at hps
  unfold serialize
  rw [List.append_assoc, List.append_assoc]
  exact key

/-- Witness for the amended C7 at the spec's §8 example message. -/
theorem parse_serialize_roundtrip_witness :
    parse_message (serialize ⟨[(toL "id", toL "123"), (toL "foo", toL "b;a r")],
        some (toL "nick!u@h"), toL "PRIVMSG", [toL "#chan", toL "hello world"]⟩)
      = .ok ⟨[(toL "id", toL "123"), (toL "foo", toL "b;a r")],
        some (toL "nick!u@h"), toL "PRIVMSG", [toL "#chan", toL "hello world"]⟩ :=
  parse_serialize_roundtrip
    ⟨[(toL "id", toL "123"), (toL "foo", toL "b;a r")],
      some (toL "nick!u@h"), toL "PRIVMSG", [toL "#chan", toL "hello world"]⟩
    (by decide)

end Irctest
